import Mathlib

/-!
Verification development for Olive's `FrameHashCache`
(`app/render/framehashcache.cpp`): a content-addressed, time-indexed render
cache.  Timestamps are exact rationals (`rational` in the source is an exact
rational clock), content hashes are byte sequences (`QByteArray`), and the
time→hash index is an ordered map (`QMap<rational, QByteArray>`), embedded
here as an association list sorted strictly by key.
-/

namespace Olive

/-- ContentHash: a `QByteArray` modelled as a list of byte values. -/
abbrev ContentHash := List Nat

/-- TimeRange: half-open interval `[rin, rout)` over rational timestamps
(`common/timerange.h`, fields `in`/`out`). -/
structure TimeRange where
  rin : ℚ
  rout : ℚ
deriving DecidableEq

/-- Modelled from the spec: `TimeRange::Contains` (in `common/timerange.cpp`,
not under `src/`); the spec's TimeInterval is the half-open range
`[in, out)`, so containment is `in <= t < out`. -/
def TimeRange.Contains (r : TimeRange) (t : ℚ) : Bool :=
  decide (r.rin ≤ t) && decide (t < r.rout)

/-- JobIdentifier: an in-flight render job with its time range and
monotonically increasing submission token `job_time` (`qint64`). -/
structure JobIdentifier where
  range : TimeRange
  job_time : ℤ

/-- Observable side effects of a cache operation, in program order:
Hash Index mutations, Validity Ledger calls made under the lock
(`NoLockValidate` / `NoLockInvalidate`), the lock release, and the Qt
signals emitted after the release. -/
inductive CacheEvent where
  | insertKey (t : ℚ)
  | eraseKey (t : ℚ)
  | ledgerValidate (r : TimeRange)
  | ledgerInvalidate (r : TimeRange)
  | unlock
  | emitValidated (r : TimeRange)
  | emitInvalidated (r : TimeRange)
deriving DecidableEq

/-- Cache state protected by the per-instance lock: the Hash Index
(`time_hash_map_`), the Job Ledger (`jobs_`) and the timebase. -/
structure CacheState where
  time_hash_map : List (ℚ × ContentHash)
  jobs : List JobIdentifier
  timebase : ℚ

/-- Lookup in the embedded `QMap<rational, QByteArray>`: first entry whose
key equals `t` (`QMap::value`, `none` standing for the default-constructed
`QByteArray` returned on a missing key). -/
def mapLookup : List (ℚ × ContentHash) → ℚ → Option ContentHash
  | [], _ => none
  | (k, v) :: rest, t => if t = k then some v else mapLookup rest t

/-- Insert for the embedded `QMap`: keeps keys sorted and overwrites the
value on an exactly matching key (`QMap::insert`). -/
def mapInsert : List (ℚ × ContentHash) → ℚ → ContentHash → List (ℚ × ContentHash)
  | [], t, h => [(t, h)]
  | (k, v) :: rest, t, h =>
    if t < k then (t, h) :: (k, v) :: rest
    else if t = k then (t, h) :: rest
    else (k, v) :: mapInsert rest t h

/-- Invariant of the embedded `QMap`: keys strictly increase along the list,
so each key occurs at most once and iteration is in ascending key order. -/
def MapSorted (m : List (ℚ × ContentHash)) : Prop :=
  m.Pairwise (fun a b => a.1 < b.1)

instance (m : List (ℚ × ContentHash)) : Decidable (MapSorted m) := by
  unfold MapSorted; infer_instance

/-- GetHash: exact-key lookup into the Hash Index (the spec's `lookup`). -/
def GetHash (st : CacheState) (time : ℚ) : Option ContentHash :=
  mapLookup st.time_hash_map time

/-- Currency scan of `SetHash`: walk the Job Ledger in the given order and
accept as soon as a job's range contains `time` and
`job_time >= job.job_time`.  `SetHash` feeds it the reversed job list,
matching the source's loop from `jobs_.size()-1` down to `0`. -/
def jobIsCurrentScan (time : ℚ) (job_time : ℤ) : List JobIdentifier → Bool
  | [] => false
  | j :: rest =>
    (j.range.Contains time && decide (j.job_time ≤ job_time))
      || jobIsCurrentScan time job_time rest

/-- SetHash (`FrameHashCache::SetHash`): run the currency scan over the Job
Ledger newest-first; if current, insert `(time, hash)` into the Hash Index,
validate `[time, time + timebase)` in the Validity Ledger under the lock,
release the lock and emit `Validated`; otherwise return with no effect.
Returns the new Hash Index and the emitted effect trace. -/
def SetHash (st : CacheState) (time : ℚ) (hash : ContentHash) (job_time : ℤ) :
    List (ℚ × ContentHash) × List CacheEvent :=
  if jobIsCurrentScan time job_time st.jobs.reverse then
    (mapInsert st.time_hash_map time hash,
     [CacheEvent.insertKey time,
      CacheEvent.ledgerValidate ⟨time, time + st.timebase⟩,
      CacheEvent.unlock,
      CacheEvent.emitValidated ⟨time, time + st.timebase⟩])
  else
    (st.time_hash_map, [])

/-- Scan loop of `TakeFramesWithHash`: walk the Hash Index in ascending key
order, erasing each entry whose value equals `hash` while recording its key.
Returns the surviving map and the recorded keys in scan order. -/
def takeScan (hash : ContentHash) : List (ℚ × ContentHash) → List (ℚ × ContentHash) × List ℚ
  | [] => ([], [])
  | (k, v) :: rest =>
    let p := takeScan hash rest
    if v = hash then (p.1, k :: p.2) else ((k, v) :: p.1, p.2)

/-- TakeFramesWithHash (`FrameHashCache::TakeFramesWithHash`): erase every
entry mapped to `hash` while collecting the removed keys, then invalidate
each removed key's sample interval in the Validity Ledger, release the lock,
and emit one `Invalidated` signal per interval.  Returns the new Hash Index,
the removed keys, and the effect trace in program order. -/
def TakeFramesWithHash (st : CacheState) (hash : ContentHash) :
    List (ℚ × ContentHash) × List ℚ × List CacheEvent :=
  let p := takeScan hash st.time_hash_map
  (p.1, p.2,
    p.2.map (fun t => CacheEvent.eraseKey t)
      ++ p.2.map (fun t => CacheEvent.ledgerInvalidate ⟨t, t + st.timebase⟩)
      ++ [CacheEvent.unlock]
      ++ p.2.map (fun t => CacheEvent.emitInvalidated ⟨t, t + st.timebase⟩))

/-- LengthChangedEvent (`FrameHashCache::LengthChangedEvent`): when the
timeline shrinks (`newlen < old`), erase every Hash Index entry whose key is
`>= newlen`; growing leaves the index untouched. -/
def LengthChangedEvent (m : List (ℚ × ContentHash)) (old newlen : ℚ) :
    List (ℚ × ContentHash) :=
  if newlen < old then m.filter (fun kv => decide (kv.1 < newlen)) else m

/-- InvalidateEvent (`FrameHashCache::InvalidateEvent`): erase every Hash
Index entry whose key lies in `[r.rin, r.rout)`.  The source method touches
only `time_hash_map_` — no Validity Ledger call and no signal — so the
returned effect trace is empty. -/
def InvalidateEvent (m : List (ℚ × ContentHash)) (r : TimeRange) :
    List (ℚ × ContentHash) × List CacheEvent :=
  (m.filter (fun kv => !(decide (r.rin ≤ kv.1) && decide (kv.1 < r.rout))), [])

/-- Scan loop of `ShiftEvent`: walk the Hash Index in ascending key order;
with a negative diff, erase keys in `[to, fm)`; erase keys `>= fm` while
collecting `(key + diff, value)`; keep everything else.  Returns the kept
entries and the collected shifted pairs, both in scan order. -/
def shiftScan (neg : Bool) (fm tov diff : ℚ) :
    List (ℚ × ContentHash) → List (ℚ × ContentHash) × List (ℚ × ContentHash)
  | [] => ([], [])
  | (k, v) :: rest =>
    let p := shiftScan neg fm tov diff rest
    if neg = true ∧ tov ≤ k ∧ k < fm then (p.1, p.2)
    else if fm ≤ k then (p.1, (k + diff, v) :: p.2)
    else ((k, v) :: p.1, p.2)

/-- ShiftEvent (`FrameHashCache::ShiftEvent`): two-phase ripple shift with
`diff = to - fm`.  Phase 1 scans and collects (erasing the collapsed region
`[to, fm)` when `diff` is negative and removing every key `>= fm` while
recording its destination); phase 2 bulk-reinserts the collected pairs. -/
def ShiftEvent (m : List (ℚ × ContentHash)) (fm tov : ℚ) : List (ℚ × ContentHash) :=
  let diff := tov - fm
  let neg := decide (diff < 0)
  let p := shiftScan neg fm tov diff m
  p.2.foldl (fun acc kv => mapInsert acc kv.1 kv.2) p.1

/-- Modelled from the spec: `Timecode::snap_time_to_timebase`
(`common/timecodefunctions.cpp`, not under `src/`); the spec says it snaps
`t` to the nearest timebase-aligned grid instant, here the nearest integer
multiple of `timebase`. -/
def snap_time_to_timebase (time timebase : ℚ) : ℚ :=
  round (time / timebase) * timebase

/-- Modelled from the spec: set subtraction of the interval `r` from one
range `x`, producing the surviving pieces `[x.rin, min x.rout r.rin)` and
`[max x.rin r.rout, x.rout)` (kept when nonempty); the spec says removal
"may shrink, consume, or split" a range. -/
def subtractRange (x r : TimeRange) : List TimeRange :=
  (if x.rin < min x.rout r.rin then [⟨x.rin, min x.rout r.rin⟩] else [])
    ++ (if max x.rin r.rout < x.rout then [⟨max x.rin r.rout, x.rout⟩] else [])

/-- Modelled from the spec: `TimeRangeList::RemoveTimeRange`
(`common/timerange.cpp`, not under `src/`); subtracts the interval `r` from
every range in the working list. -/
def removeTimeRange : List TimeRange → TimeRange → List TimeRange
  | [], _ => []
  | x :: rest, r => subtractRange x r ++ removeTimeRange rest r

/-- GetFrameListFromTimeRange (`FrameHashCache::GetFrameListFromTimeRange`,
static overload): repeatedly snap the first range's start to the grid,
emit the selected sample and subtract `[selected, next)` from the working
list.  The source loop has no termination guard, so the embedding takes a
fuel parameter and returns `none` when fuel runs out with ranges left. -/
def GetFrameListFromTimeRange : Nat → List TimeRange → ℚ → Option (List ℚ)
  | _, [], _ => some []
  | 0, _ :: _, _ => none
  | fuel + 1, range :: rest, timebase =>
    let time := range.rin
    let snapped := snap_time_to_timebase time timebase
    let sel := if snapped > time then snapped - timebase else snapped
    let next := if snapped > time then snapped else snapped + timebase
    Option.map (fun l => sel :: l)
      (GetFrameListFromTimeRange fuel (removeTimeRange (range :: rest) ⟨sel, next⟩) timebase)

/-- Number of grid cells of width `tb` touched by the range, plus one; used
as a termination measure for the expansion loop. -/
def rangeCells (tb : ℚ) (x : TimeRange) : ℕ :=
  (⌈x.rout / tb⌉ - ⌊x.rin / tb⌋).toNat + 1

/-- Total termination measure of a working range list. -/
def listCells (tb : ℚ) : List TimeRange → ℕ
  | [] => 0
  | x :: rest => rangeCells tb x + listCells tb rest

/-- PixelFormat::Format (`codec/pixelformat.h`): the pixel formats named in
`FrameHashCache::SaveCacheFrame`'s dispatch. -/
inductive PixelFormat where
  | RGB8
  | RGBA8
  | RGB16U
  | RGBA16U
  | RGB16F
  | RGBA16F
  | RGB32F
  | RGBA32F
  | INVALID
  | COUNT
deriving DecidableEq

/-- Modelled from the spec: `PixelFormat::FormatIsFloat`
(`codec/pixelformat.cpp`, not under `src/`); the floating-point class is the
half/full-precision formats, matching the float cases of
`FrameHashCache::SaveCacheFrame`'s switch. -/
def FormatIsFloat : PixelFormat → Bool
  | PixelFormat.RGB16F => true
  | PixelFormat.RGBA16F => true
  | PixelFormat.RGB32F => true
  | PixelFormat.RGBA32F => true
  | _ => false

/-- GetFormatExtension (`FrameHashCache::GetFormatExtension`): EXR for
floating-point formats, JPEG otherwise. -/
def GetFormatExtension (f : PixelFormat) : String :=
  if FormatIsFloat f then ".exr" else ".jpg"

/-- Lowercase hexadecimal digit for a nibble value. -/
def hexDigitChar (n : Nat) : Char :=
  if n < 10 then Char.ofNat (48 + n) else Char.ofNat (87 + n)

/-- Hex encoding of one byte, high nibble first (`QByteArray::toHex` per
byte: two lowercase digits). -/
def byteToHex (b : Nat) : String :=
  String.mk [hexDigitChar (b / 16), hexDigitChar (b % 16)]

/-- Hex encoding of a byte sequence (`QByteArray::toHex`). -/
def bytesToHex (bs : List Nat) : String :=
  String.join (bs.map byteToHex)

/-- CachePathName (`FrameHashCache::CachePathName`): two-level sharded path
`<root>/<hex of first byte>/<hex of remaining bytes><ext>`, with `root`
standing for the external `FileFunctions::GetMediaCacheLocation()` and the
extension chosen by `GetFormatExtension`.  The source's `mkpath` side
effect is not part of the returned value. -/
def CachePathName (root : String) (hash : List Nat) (pix_fmt : PixelFormat) : String :=
  root ++ "/" ++ bytesToHex (hash.take 1) ++ "/"
    ++ (bytesToHex (hash.drop 1) ++ GetFormatExtension pix_fmt)

/-! ### Lemmas about the embedded `QMap` operations -/

theorem mapLookup_mapInsert_self (m : List (ℚ × ContentHash)) (t : ℚ) (h : ContentHash) :
    mapLookup (mapInsert m t h) t = some h := by
  induction m with
  | nil => simp [mapInsert, mapLookup]
  | cons kv rest ih =>
    obtain ⟨k, v⟩ := kv
    by_cases h1 : t < k
    · simp [mapInsert, h1, mapLookup]
    · by_cases h2 : t = k
      · simp [mapInsert, h1, h2, mapLookup]
      · simp [mapInsert, h1, h2, mapLookup, ih]

theorem mapLookup_mapInsert_ne (m : List (ℚ × ContentHash)) (t : ℚ) (h : ContentHash)
    (q : ℚ) (hq : q ≠ t) :
    mapLookup (mapInsert m t h) q = mapLookup m q := by
  induction m with
  | nil => simp [mapInsert, mapLookup, hq]
  | cons kv rest ih =>
    obtain ⟨k, v⟩ := kv
    by_cases h1 : t < k
    · simp [mapInsert, h1, mapLookup, hq]
    · by_cases h2 : t = k
      · subst h2; simp [mapInsert, h1, mapLookup, hq]
      · simp [mapInsert, h1, h2, mapLookup, ih]

theorem mapLookup_eq_none_of_forall_ne (m : List (ℚ × ContentHash)) (q : ℚ)
    (h : ∀ kv ∈ m, kv.1 ≠ q) :
    mapLookup m q = none := by
  induction m with
  | nil => rfl
  | cons kv rest ih =>
    obtain ⟨k, v⟩ := kv
    have hk : k ≠ q := h (k, v) (by simp)
    simp only [mapLookup, if_neg (Ne.symm hk)]
    exact ih fun kv hkv => h kv (by simp [hkv])

theorem mapLookup_mem (m : List (ℚ × ContentHash)) (k : ℚ) (v : ContentHash)
    (hs : MapSorted m) (hmem : (k, v) ∈ m) :
    mapLookup m k = some v := by
  induction m with
  | nil => cases hmem
  | cons kv rest ih =>
    obtain ⟨k0, v0⟩ := kv
    rw [MapSorted, List.pairwise_cons] at hs
    rcases List.mem_cons.mp hmem with heq | hmem'
    · obtain ⟨rfl, rfl⟩ := Prod.mk.injEq .. ▸ heq
      simp [mapLookup]
    · have hk : k0 < k := hs.1 (k, v) hmem'
      simp only [mapLookup, if_neg (ne_of_gt hk)]
      exact ih hs.2 hmem'

theorem mapLookup_some_mem (m : List (ℚ × ContentHash)) (q : ℚ) (v : ContentHash)
    (h : mapLookup m q = some v) : (q, v) ∈ m := by
  induction m with
  | nil => cases h
  | cons kv rest ih =>
    obtain ⟨k, v0⟩ := kv
    by_cases hqk : q = k
    · subst hqk
      simp only [mapLookup, eq_self_iff_true, if_true, Option.some.injEq] at h
      simp [h]
    · simp only [mapLookup, if_neg hqk] at h
      exact List.mem_cons_of_mem _ (ih h)

theorem mapLookup_filterKey (P : ℚ → Bool) (m : List (ℚ × ContentHash)) (q : ℚ) :
    mapLookup (m.filter fun kv => P kv.1) q
      = if P q = true then mapLookup m q else none := by
  induction m with
  | nil => simp [mapLookup]
  | cons kv rest ih =>
    obtain ⟨k, v⟩ := kv
    rcases eq_or_ne q k with hqk | hqk
    · subst hqk
      by_cases hP : P q = true
      · simp [List.filter_cons, hP, mapLookup]
      · simp [List.filter_cons, hP, mapLookup, ih]
    · by_cases hP : P k = true
      · simp [List.filter_cons, hP, mapLookup, hqk, ih]
      · simp [List.filter_cons, hP, mapLookup, hqk, ih]

theorem mapLookup_filter_sorted (P : ℚ × ContentHash → Bool) (m : List (ℚ × ContentHash))
    (hs : MapSorted m) (q : ℚ) :
    mapLookup (m.filter P) q
      = (mapLookup m q).bind fun v => if P (q, v) = true then some v else none := by
  induction m with
  | nil => rfl
  | cons kv rest ih =>
    obtain ⟨k, v⟩ := kv
    rw [MapSorted, List.pairwise_cons] at hs
    rcases eq_or_ne q k with hqk | hqk
    · subst hqk
      by_cases hP : P (q, v) = true
      · simp [List.filter_cons, hP, mapLookup]
      · have hnone : mapLookup (List.filter P rest) q = none := by
          apply mapLookup_eq_none_of_forall_ne
          intro kv hkv
          exact ne_of_gt (hs.1 kv (List.mem_of_mem_filter hkv))
        simp [List.filter_cons, hP, mapLookup, hnone]
    · by_cases hP : P (k, v) = true
      · simp [List.filter_cons, hP, mapLookup, hqk, ih hs.2]
      · simp [List.filter_cons, hP, mapLookup, hqk, ih hs.2]

theorem mapLookup_append (a b : List (ℚ × ContentHash)) (q : ℚ) :
    mapLookup (a ++ b) q
      = ((mapLookup a q).map some).getD (mapLookup b q) := by
  induction a with
  | nil => rfl
  | cons kv rest ih =>
    obtain ⟨k, v⟩ := kv
    by_cases hqk : q = k
    · simp [mapLookup, hqk]
    · simp [mapLookup, hqk, ih]

theorem mapLookup_map_add (m : List (ℚ × ContentHash)) (d q : ℚ) :
    mapLookup (m.map fun kv => (kv.1 + d, kv.2)) q = mapLookup m (q - d) := by
  induction m with
  | nil => rfl
  | cons kv rest ih =>
    obtain ⟨k, v⟩ := kv
    have hiff : (q = k + d) ↔ (q - d = k) := by constructor <;> intro h <;> linarith
    simp [mapLookup, ih, hiff]

theorem jobIsCurrentScan_iff (time : ℚ) (jt : ℤ) (l : List JobIdentifier) :
    jobIsCurrentScan time jt l = true ↔
      ∃ j ∈ l, j.range.Contains time = true ∧ j.job_time ≤ jt := by
  induction l with
  | nil => simp [jobIsCurrentScan]
  | cons j rest ih =>
    simp only [jobIsCurrentScan, Bool.or_eq_true, Bool.and_eq_true, decide_eq_true_eq,
      ih, List.mem_cons]
    constructor
    · rintro (⟨h1, h2⟩ | ⟨j', hj', h'⟩)
      · exact ⟨j, Or.inl rfl, h1, h2⟩
      · exact ⟨j', Or.inr hj', h'⟩
    · rintro ⟨j', hj' | hj', h'⟩
      · exact Or.inl (hj' ▸ h')
      · exact Or.inr ⟨j', hj', h'⟩

/-! ### Claim C1: the `SetHash` currency gate -/

/-- Claim C1: a completion `SetHash(time, hash, job_time)` is current exactly
when some Job Ledger entry's range contains `time` with
`job_time >= job.job_time` (the source scans newest-first); when current,
`(time, hash)` is inserted overwriting any prior value at that exact
timestamp, `[time, time + timebase)` is validated, and a `Validated` signal
carrying that interval is emitted after the lock release; when not current,
the Hash Index is unchanged and no validation or signal occurs. -/
theorem setHash_spec (st : CacheState) (time : ℚ) (hash : ContentHash) (job_time : ℤ) :
    (jobIsCurrentScan time job_time st.jobs.reverse = true ↔
        ∃ j ∈ st.jobs, j.range.Contains time = true ∧ j.job_time ≤ job_time)
    ∧ (jobIsCurrentScan time job_time st.jobs.reverse = true →
        mapLookup (SetHash st time hash job_time).1 time = some hash
        ∧ (∀ q : ℚ, q ≠ time →
            mapLookup (SetHash st time hash job_time).1 q = mapLookup st.time_hash_map q)
        ∧ (SetHash st time hash job_time).2 =
            [CacheEvent.insertKey time,
             CacheEvent.ledgerValidate ⟨time, time + st.timebase⟩,
             CacheEvent.unlock,
             CacheEvent.emitValidated ⟨time, time + st.timebase⟩])
    ∧ (jobIsCurrentScan time job_time st.jobs.reverse = false →
        (SetHash st time hash job_time).1 = st.time_hash_map
        ∧ (SetHash st time hash job_time).2 = []) := by
  refine ⟨?_, ?_, ?_⟩
  · rw [jobIsCurrentScan_iff]
    simp [List.mem_reverse]
  · intro hcur
    simp only [SetHash, hcur, if_true]
    exact ⟨mapLookup_mapInsert_self _ _ _,
      fun q hq => mapLookup_mapInsert_ne _ _ _ _ hq, trivial⟩
  · intro hcur
    simp [SetHash, hcur]

/-- Witness for C1: with one job `[0,10)` at sequence `3`, a completion at
time `2` with sequence `5` is current and lands in the index. -/
theorem setHash_spec_witness :
    mapLookup (SetHash ⟨[], [⟨⟨0, 10⟩, 3⟩], 1⟩ 2 [7] 5).1 2 = some [7] ∧
    (SetHash ⟨[(4, [9])], [], 1⟩ 4 [7] 5).1 = [(4, [9])] :=
  ⟨((setHash_spec ⟨[], [⟨⟨0, 10⟩, 3⟩], 1⟩ 2 [7] 5).2.1 (by decide)).1,
   ((setHash_spec ⟨[(4, [9])], [], 1⟩ 4 [7] 5).2.2 (by decide)).1⟩

/-! ### Claim C7: truncation -/

/-- Claim C7: `LengthChangedEvent(old, newlen)` with `newlen < old` removes
every entry with key `>= newlen` and keeps every entry with key `< newlen`
unchanged; growing the timeline (`newlen >= old`) is a no-op. -/
theorem lengthChangedEvent_spec (m : List (ℚ × ContentHash)) (old newlen : ℚ) :
    (newlen < old →
      (∀ q : ℚ, newlen ≤ q → mapLookup (LengthChangedEvent m old newlen) q = none)
      ∧ (∀ q : ℚ, q < newlen →
          mapLookup (LengthChangedEvent m old newlen) q = mapLookup m q))
    ∧ (old ≤ newlen → LengthChangedEvent m old newlen = m) := by
  constructor
  · intro hlt
    constructor
    · intro q hq
      rw [LengthChangedEvent, if_pos hlt,
        mapLookup_filterKey (fun k => decide (k < newlen)) m q]
      simp [not_lt.mpr hq]
    · intro q hq
      rw [LengthChangedEvent, if_pos hlt,
        mapLookup_filterKey (fun k => decide (k < newlen)) m q]
      simp [hq]
  · intro hge
    rw [LengthChangedEvent, if_neg (not_lt.mpr hge)]

/-- Witness for C7: `Truncate(old=10, new=4)` removes key `5` and keeps key
`1`; `Truncate(old=4, new=10)` is a no-op. -/
theorem lengthChangedEvent_spec_witness :
    mapLookup (LengthChangedEvent [(1, [1]), (5, [2])] 10 4) 5 = none
    ∧ mapLookup (LengthChangedEvent [(1, [1]), (5, [2])] 10 4) 1 = some [1]
    ∧ LengthChangedEvent [(1, [1]), (5, [2])] 4 10 = [(1, [1]), (5, [2])] :=
  ⟨((lengthChangedEvent_spec [(1, [1]), (5, [2])] 10 4).1 (by norm_num)).1 5 (by norm_num),
   ((lengthChangedEvent_spec [(1, [1]), (5, [2])] 10 4).1 (by norm_num)).2 1 (by norm_num),
   (lengthChangedEvent_spec [(1, [1]), (5, [2])] 4 10).2 (by norm_num)⟩

/-! ### Claim C8: range invalidation -/

/-- Claim C8: `InvalidateEvent(r)` removes exactly the entries with keys in
`[r.rin, r.rout)`, leaves every other entry unchanged, and performs no
Validity Ledger update and emits no signal. -/
theorem invalidateEvent_spec (m : List (ℚ × ContentHash)) (r : TimeRange) :
    (∀ q : ℚ, r.rin ≤ q → q < r.rout → mapLookup (InvalidateEvent m r).1 q = none)
    ∧ (∀ q : ℚ, q < r.rin ∨ r.rout ≤ q →
        mapLookup (InvalidateEvent m r).1 q = mapLookup m q)
    ∧ (InvalidateEvent m r).2 = [] := by
  refine ⟨?_, ?_, rfl⟩
  · intro q h1 h2
    show mapLookup (m.filter fun kv => !(decide (r.rin ≤ kv.1) && decide (kv.1 < r.rout))) q
      = none
    rw [mapLookup_filterKey (fun k => !(decide (r.rin ≤ k) && decide (k < r.rout))) m q]
    simp [h1, h2]
  · intro q hq
    show mapLookup (m.filter fun kv => !(decide (r.rin ≤ kv.1) && decide (kv.1 < r.rout))) q
      = mapLookup m q
    rw [mapLookup_filterKey (fun k => !(decide (r.rin ≤ k) && decide (k < r.rout))) m q]
    rcases hq with hq | hq
    · simp [not_le.mpr hq]
    · simp [not_lt.mpr hq]

/-- Witness for C8: invalidating `[2, 6)` removes key `3` and keeps key `7`. -/
theorem invalidateEvent_spec_witness :
    mapLookup (InvalidateEvent [(3, [1]), (7, [2])] ⟨2, 6⟩).1 3 = none
    ∧ mapLookup (InvalidateEvent [(3, [1]), (7, [2])] ⟨2, 6⟩).1 7 = some [2]
    ∧ (InvalidateEvent [(3, [1]), (7, [2])] ⟨2, 6⟩).2 = [] :=
  ⟨(invalidateEvent_spec [(3, [1]), (7, [2])] ⟨2, 6⟩).1 3 (by norm_num) (by norm_num),
   (invalidateEvent_spec [(3, [1]), (7, [2])] ⟨2, 6⟩).2.1 7 (Or.inr (by norm_num)),
   (invalidateEvent_spec [(3, [1]), (7, [2])] ⟨2, 6⟩).2.2⟩

/-! ### Claim C9: the deterministic cache path -/

theorem bytesToHex_singleton (b : Nat) : bytesToHex [b] = byteToHex b := by
  simp [bytesToHex, String.join]

/-- Claim C9: `CachePathName(hash, pix_fmt)` is the deterministic path
`<cache_root>/<hex(hash[0])>/<hex(hash[1:])>.<ext>`: the first-level
directory is the hex encoding of the hash's first byte, the filename the hex
encoding of the remaining bytes, and the extension depends only on the
pixel-format class — the high-precision multi-channel container (`.exr`) for
floating-point formats, the smaller lossy integer-sample container (`.jpg`)
for integer formats. -/
theorem cachePathName_spec :
    (∀ (root : String) (b : Nat) (rest : List Nat) (f : PixelFormat),
      CachePathName root (b :: rest) f =
        root ++ "/" ++ byteToHex b ++ "/" ++ (bytesToHex rest ++ GetFormatExtension f))
    ∧ (∀ f, FormatIsFloat f = true → GetFormatExtension f = ".exr")
    ∧ (∀ f, FormatIsFloat f = false → GetFormatExtension f = ".jpg")
    ∧ (∀ f g, FormatIsFloat f = FormatIsFloat g →
        GetFormatExtension f = GetFormatExtension g) := by
  refine ⟨?_, ?_, ?_, ?_⟩
  · intro root b rest f
    simp [CachePathName, bytesToHex_singleton]
  · intro f hf
    simp [GetFormatExtension, hf]
  · intro f hf
    simp [GetFormatExtension, hf]
  · intro f g hfg
    simp [GetFormatExtension, hfg]

/-- Witness for C9: a float format maps to an `.exr` path, an integer format
to a `.jpg` path, sharded on the first byte. -/
theorem cachePathName_spec_witness :
    CachePathName "root" [171, 1, 254] PixelFormat.RGBA32F
      = "root" ++ "/" ++ byteToHex 171 ++ "/" ++ (bytesToHex [1, 254] ++ GetFormatExtension PixelFormat.RGBA32F)
    ∧ GetFormatExtension PixelFormat.RGBA32F = ".exr"
    ∧ GetFormatExtension PixelFormat.RGB8 = ".jpg" :=
  ⟨cachePathName_spec.1 "root" 171 [1, 254] PixelFormat.RGBA32F,
   cachePathName_spec.2.1 PixelFormat.RGBA32F (by decide),
   cachePathName_spec.2.2.1 PixelFormat.RGB8 (by decide)⟩

/-! ### Claim C2: removal by hash -/

theorem takeScan_eq (hash : ContentHash) (m : List (ℚ × ContentHash)) :
    takeScan hash m = (m.filter fun kv => !decide (kv.2 = hash),
      (m.filter fun kv => decide (kv.2 = hash)).map Prod.fst) := by
  induction m with
  | nil => rfl
  | cons kv rest ih =>
    obtain ⟨k, v⟩ := kv
    by_cases hv : v = hash
    · simp [takeScan, hv, List.filter_cons, ih]
    · simp [takeScan, hv, List.filter_cons, ih]

/-- Claim C2: `TakeFramesWithHash(hash)` removes from the Hash Index every
entry mapped to `hash` and returns exactly the removed timestamps (lookup on
any of them afterwards returns nothing, every other key is untouched), then
invalidates each removed timestamp's sample interval and emits one
`Invalidated` signal per interval, all batched after the map mutation. -/
theorem takeFramesWithHash_spec (st : CacheState) (hash : ContentHash)
    (hs : MapSorted st.time_hash_map) :
    (∀ t : ℚ, t ∈ (TakeFramesWithHash st hash).2.1 ↔
        mapLookup st.time_hash_map t = some hash)
    ∧ (∀ t ∈ (TakeFramesWithHash st hash).2.1,
        mapLookup (TakeFramesWithHash st hash).1 t = none)
    ∧ (∀ q : ℚ, q ∉ (TakeFramesWithHash st hash).2.1 →
        mapLookup (TakeFramesWithHash st hash).1 q = mapLookup st.time_hash_map q)
    ∧ (TakeFramesWithHash st hash).2.2 =
        (TakeFramesWithHash st hash).2.1.map (fun t => CacheEvent.eraseKey t)
        ++ (TakeFramesWithHash st hash).2.1.map
            (fun t => CacheEvent.ledgerInvalidate ⟨t, t + st.timebase⟩)
        ++ [CacheEvent.unlock]
        ++ (TakeFramesWithHash st hash).2.1.map
            (fun t => CacheEvent.emitInvalidated ⟨t, t + st.timebase⟩) := by
  have h1 : (TakeFramesWithHash st hash).1
      = st.time_hash_map.filter fun kv => !decide (kv.2 = hash) := by
    show (takeScan hash st.time_hash_map).1 = _
    rw [takeScan_eq]
  have h21 : (TakeFramesWithHash st hash).2.1
      = (st.time_hash_map.filter fun kv => decide (kv.2 = hash)).map Prod.fst := by
    show (takeScan hash st.time_hash_map).2 = _
    rw [takeScan_eq]
  have hiff : ∀ t : ℚ, t ∈ (TakeFramesWithHash st hash).2.1 ↔
      mapLookup st.time_hash_map t = some hash := by
    intro t
    rw [h21]
    simp only [List.mem_map]
    constructor
    · rintro ⟨kv, hkv, rfl⟩
      have hmem : (kv.1, kv.2) ∈ st.time_hash_map := List.mem_of_mem_filter hkv
      have hv : kv.2 = hash := by simpa using List.of_mem_filter hkv
      rw [hv] at hmem
      exact mapLookup_mem _ _ _ hs hmem
    · intro hlook
      exact ⟨(t, hash), List.mem_filter.mpr ⟨mapLookup_some_mem _ _ _ hlook, by simp⟩, rfl⟩
  refine ⟨hiff, ?_, ?_, rfl⟩
  · intro t ht
    rw [h1, mapLookup_filter_sorted (fun kv => !decide (kv.2 = hash)) _ hs t,
      (hiff t).mp ht]
    simp
  · intro q hq
    rw [h1, mapLookup_filter_sorted (fun kv => !decide (kv.2 = hash)) _ hs q]
    cases hcase : mapLookup st.time_hash_map q with
    | none => rfl
    | some v =>
      by_cases hv : v = hash
      · exact absurd ((hiff q).mpr (hv ▸ hcase)) hq
      · simp [hv]

/-- Witness for C2: with index `{0 ↦ [1], 1 ↦ [2], 2 ↦ [1]}`, taking hash
`[1]` reports timestamp `0` as removed and its lookup afterwards is empty. -/
theorem takeFramesWithHash_spec_witness :
    (0 : ℚ) ∈ (TakeFramesWithHash ⟨[(0, [1]), (1, [2]), (2, [1])], [], 1⟩ [1]).2.1
    ∧ mapLookup (TakeFramesWithHash ⟨[(0, [1]), (1, [2]), (2, [1])], [], 1⟩ [1]).1 0 = none :=
  ⟨((takeFramesWithHash_spec ⟨[(0, [1]), (1, [2]), (2, [1])], [], 1⟩ [1] (by decide)).1 0).mpr
      (by decide),
   (takeFramesWithHash_spec ⟨[(0, [1]), (1, [2]), (2, [1])], [], 1⟩ [1] (by decide)).2.1 0
      (by decide)⟩

/-! ### Claims C3 and C10: ripple shift -/

theorem shiftScan_neg (fm tov diff : ℚ) (hto : tov < fm) (m : List (ℚ × ContentHash)) :
    shiftScan true fm tov diff m =
      (m.filter fun kv => decide (kv.1 < tov),
       (m.filter fun kv => decide (fm ≤ kv.1)).map fun kv => (kv.1 + diff, kv.2)) := by
  induction m with
  | nil => rfl
  | cons kv rest ih =>
    obtain ⟨k, v⟩ := kv
    rcases lt_trichotomy k tov with hk | hk | hk
    · have c1 : ¬(True ∧ tov ≤ k ∧ k < fm) := by
        intro h; exact absurd h.2.1 (not_le.mpr hk)
      have c2 : ¬(fm ≤ k) := not_le.mpr (lt_trans hk hto)
      simp [shiftScan, ih, List.filter_cons, c1, c2, hk, not_le.mpr (lt_trans hk hto)]
    · subst hk
      by_cases c2 : fm ≤ k
      · exact absurd hto (not_lt.mpr c2)
      · have c1 : True ∧ k ≤ k ∧ k < fm := ⟨trivial, le_refl k, not_le.mp c2⟩
        simp [shiftScan, ih, List.filter_cons, c1, lt_irrefl, c2]
    · by_cases c2 : fm ≤ k
      · have c1 : ¬(True ∧ tov ≤ k ∧ k < fm) := by
          intro h; exact absurd h.2.2 (not_lt.mpr c2)
        simp [shiftScan, ih, List.filter_cons, c1, c2, not_lt.mpr (le_of_lt hk)]
      · have c1 : True ∧ tov ≤ k ∧ k < fm := ⟨trivial, le_of_lt hk, not_le.mp c2⟩
        simp [shiftScan, ih, List.filter_cons, c1, not_lt.mpr (le_of_lt hk), c2]

theorem shiftScan_nonneg (fm tov diff : ℚ) (m : List (ℚ × ContentHash)) :
    shiftScan false fm tov diff m =
      (m.filter fun kv => decide (kv.1 < fm),
       (m.filter fun kv => decide (fm ≤ kv.1)).map fun kv => (kv.1 + diff, kv.2)) := by
  induction m with
  | nil => rfl
  | cons kv rest ih =>
    obtain ⟨k, v⟩ := kv
    have c1 : ¬(False = true ∧ tov ≤ k ∧ k < fm) := by simp
    by_cases c2 : fm ≤ k
    · simp [shiftScan, ih, List.filter_cons, c1, c2, not_lt.mpr c2]
    · simp [shiftScan, ih, List.filter_cons, c1, c2, not_le.mp c2]

theorem mapInsert_append_last (m : List (ℚ × ContentHash)) (t : ℚ) (h : ContentHash)
    (hlt : ∀ kv ∈ m, kv.1 < t) :
    mapInsert m t h = m ++ [(t, h)] := by
  induction m with
  | nil => rfl
  | cons kv rest ih =>
    obtain ⟨k, v⟩ := kv
    have hk : k < t := hlt (k, v) (by simp)
    rw [mapInsert, if_neg (not_lt.mpr (le_of_lt hk)), if_neg (ne_of_gt hk),
      ih fun kv hkv => hlt kv (by simp [hkv])]
    rfl

theorem foldl_mapInsert_append (sh : List (ℚ × ContentHash)) :
    ∀ acc : List (ℚ × ContentHash), MapSorted (acc ++ sh) →
      sh.foldl (fun a kv => mapInsert a kv.1 kv.2) acc = acc ++ sh := by
  induction sh with
  | nil => intro acc _; simp
  | cons s sh' ih =>
    intro acc hs
    have hlt : ∀ kv ∈ acc, kv.1 < s.1 := by
      rw [MapSorted, List.pairwise_append] at hs
      intro kv hkv
      exact hs.2.2 kv hkv s (by simp)
    have hins : mapInsert acc s.1 s.2 = acc ++ [s] :=
      mapInsert_append_last acc s.1 s.2 hlt
    have hs' : MapSorted ((acc ++ [s]) ++ sh') := by
      rw [List.append_assoc]
      simpa using hs
    calc (s :: sh').foldl (fun a kv => mapInsert a kv.1 kv.2) acc
        = sh'.foldl (fun a kv => mapInsert a kv.1 kv.2) (mapInsert acc s.1 s.2) := rfl
      _ = sh'.foldl (fun a kv => mapInsert a kv.1 kv.2) (acc ++ [s]) := by rw [hins]
      _ = (acc ++ [s]) ++ sh' := ih _ hs'
      _ = acc ++ s :: sh' := by simp

theorem filter_lt_append_ge (m : List (ℚ × ContentHash)) (c : ℚ) (hs : MapSorted m) :
    (m.filter fun kv => decide (kv.1 < c)) ++ (m.filter fun kv => decide (c ≤ kv.1)) = m := by
  induction m with
  | nil => rfl
  | cons kv rest ih =>
    rw [MapSorted, List.pairwise_cons] at hs
    by_cases hk : kv.1 < c
    · rw [List.filter_cons, List.filter_cons, if_pos (decide_eq_true hk),
        if_neg (by simpa using not_le.mpr hk), List.cons_append, ih hs.2]
    · have hc : c ≤ kv.1 := not_lt.mp hk
      have hf1 : rest.filter (fun kv => decide (kv.1 < c)) = [] := by
        rw [List.filter_eq_nil_iff]
        intro x hx
        simp [not_lt.mpr (le_trans hc (le_of_lt (hs.1 x hx)))]
      have hf2 : rest.filter (fun kv => decide (c ≤ kv.1)) = rest := by
        rw [List.filter_eq_self]
        intro x hx
        simp [le_trans hc (le_of_lt (hs.1 x hx))]
      rw [List.filter_cons, List.filter_cons, if_neg (by simpa using hk),
        if_pos (decide_eq_true hc), hf1, hf2, List.nil_append]

/-- Claim C10: with `tov = fm` (`diff = 0`) `ShiftEvent` removes and
reinserts every entry with key `>= fm` at its own key, so the Hash Index is
left unchanged: the call is an identity operation. -/
theorem shiftEvent_eq_foldl (m : List (ℚ × ContentHash)) (fm tov : ℚ) :
    ShiftEvent m fm tov =
      (shiftScan (decide (tov - fm < 0)) fm tov (tov - fm) m).2.foldl
        (fun acc kv => mapInsert acc kv.1 kv.2)
        (shiftScan (decide (tov - fm < 0)) fm tov (tov - fm) m).1 := rfl

theorem shiftEvent_identity (m : List (ℚ × ContentHash)) (fm : ℚ) (hs : MapSorted m) :
    ShiftEvent m fm fm = m := by
  rw [shiftEvent_eq_foldl, sub_self]
  rw [show (decide ((0:ℚ) < 0)) = false from by simp]
  rw [shiftScan_nonneg fm fm 0 m]
  dsimp only
  simp only [add_zero]
  have hmap : (List.map (fun kv : ℚ × ContentHash => (kv.1, kv.2))
      (m.filter fun kv => decide (fm ≤ kv.1))) = m.filter fun kv => decide (fm ≤ kv.1) := by
    simp
  rw [hmap, foldl_mapInsert_append _ _ (by rw [filter_lt_append_ge m fm hs]; exact hs),
    filter_lt_append_ge m fm hs]

/-- Witness for C10: a shift with `from = to = 3` leaves a concrete sorted
index untouched. -/
theorem shiftEvent_identity_witness :
    ShiftEvent [(1, [10]), (5, [50])] 3 3 = [(1, [10]), (5, [50])] :=
  shiftEvent_identity [(1, [10]), (5, [50])] 3 (by decide)

theorem shiftEvent_neg_result (m : List (ℚ × ContentHash)) (fm tov : ℚ)
    (hs : MapSorted m) (hneg : tov < fm) :
    ShiftEvent m fm tov =
      (m.filter fun kv => decide (kv.1 < tov))
      ++ ((m.filter fun kv => decide (fm ≤ kv.1)).map
            fun kv => (kv.1 + (tov - fm), kv.2)) := by
  have hnegb : decide (tov - fm < 0) = true := by
    simp [sub_neg]
    exact hneg
  rw [ShiftEvent]
  simp only [hnegb, shiftScan_neg fm tov (tov - fm) hneg]
  apply foldl_mapInsert_append
  rw [MapSorted, List.pairwise_append]
  refine ⟨(hs.filter _), ?_, ?_⟩
  · rw [List.pairwise_map]
    exact (hs.filter _).imp fun hab => by simpa using add_lt_add_right hab (tov - fm)
  · intro a ha b hb
    have ha' : a.1 < tov := by simpa using List.of_mem_filter ha
    rw [List.mem_map] at hb
    obtain ⟨x, hx, rfl⟩ := hb
    have hx' : fm ≤ x.1 := by simpa using List.of_mem_filter hx
    show a.1 < x.1 + (tov - fm)
    linarith

/-- Claim C3: for a negative shift (`tov < fm`), every entry with key in
`[tov, fm)` is deleted outright, every entry with key `>= fm` is moved to
`key + diff` carrying its hash, and the surviving entries below the
collapsed region are untouched — summarised by the lookup characterisation
below; in particular `Shift(from=5, to=2)` on keys `{1,2,5,6,7}` yields
exactly keys `{1,2,3,4}` with key `1` unchanged and `5,6,7` moved to
`2,3,4`. -/
theorem shiftEvent_spec :
    (∀ (m : List (ℚ × ContentHash)) (fm tov : ℚ), MapSorted m → tov < fm →
      ∀ q : ℚ, mapLookup (ShiftEvent m fm tov) q =
        if q < tov then mapLookup m q else mapLookup m (q + (fm - tov)))
    ∧ ShiftEvent [(1, [10]), (2, [20]), (5, [50]), (6, [60]), (7, [70])] 5 2
        = [(1, [10]), (2, [50]), (3, [60]), (4, [70])] := by
  constructor
  · intro m fm tov hs hneg q
    rw [shiftEvent_neg_result m fm tov hs hneg, mapLookup_append,
      mapLookup_filterKey (fun k => decide (k < tov)) m q,
      mapLookup_map_add, mapLookup_filterKey (fun k => decide (fm ≤ k)) m (q - (tov - fm))]
    rw [show q - (tov - fm) = q + (fm - tov) from by ring]
    by_cases hq : q < tov
    · have hnotge : ¬ fm ≤ q + (fm - tov) := by intro hcon; linarith
      rw [if_pos hq, if_pos (decide_eq_true hq), if_neg (by simpa using hnotge)]
      cases mapLookup m q <;> rfl
    · have hge : fm ≤ q + (fm - tov) := by
        have h' : tov ≤ q := not_lt.mp hq
        linarith
      rw [if_neg hq, if_neg (by simpa using hq), if_pos (decide_eq_true hge)]
      rfl
  · have hres := shiftEvent_neg_result
      [(1, [10]), (2, [20]), (5, [50]), (6, [60]), (7, [70])] 5 2 (by decide) (by norm_num)
    rw [hres]
    norm_num [List.filter]

/-- Witness for C3: the lookup characterisation applied at the concrete
shifted index, at a key below and a key inside the collapsed region. -/
theorem shiftEvent_spec_witness :
    mapLookup (ShiftEvent [(1, [10]), (2, [20]), (5, [50]), (6, [60]), (7, [70])] 5 2) 1
        = mapLookup [(1, [10]), (2, [20]), (5, [50]), (6, [60]), (7, [70])] 1
    ∧ mapLookup (ShiftEvent [(1, [10]), (2, [20]), (5, [50]), (6, [60]), (7, [70])] 5 2) 2
        = mapLookup [(1, [10]), (2, [20]), (5, [50]), (6, [60]), (7, [70])] (2 + (5 - 2)) := by
  have h1 := shiftEvent_spec.1 [(1, [10]), (2, [20]), (5, [50]), (6, [60]), (7, [70])] 5 2
    (by decide) (by norm_num) 1
  have h2 := shiftEvent_spec.1 [(1, [10]), (2, [20]), (5, [50]), (6, [60]), (7, [70])] 5 2
    (by decide) (by norm_num) 2
  rw [if_pos (by norm_num : (1:ℚ) < 2)] at h1
  rw [if_neg (by norm_num : ¬((2:ℚ) < 2))] at h2
  exact ⟨h1, h2⟩

/-! ### Claims C4, C5, C6: sample grid expansion -/

theorem listCells_append (tb : ℚ) (a b : List TimeRange) :
    listCells tb (a ++ b) = listCells tb a + listCells tb b := by
  induction a with
  | nil => simp [listCells]
  | cons x rest ih => simp [listCells, ih]; ring

/-- The selected sample and next boundary computed by one loop iteration are
consecutive grid instants with `sel ≤ t < next`. -/
theorem snap_sel_grid (tb : ℚ) (htb : 0 < tb) (t : ℚ) :
    ∃ k : ℤ,
      (if snap_time_to_timebase t tb > t then snap_time_to_timebase t tb - tb
       else snap_time_to_timebase t tb) = (k : ℚ) * tb
      ∧ (if snap_time_to_timebase t tb > t then snap_time_to_timebase t tb
         else snap_time_to_timebase t tb + tb) = ((k : ℚ) + 1) * tb
      ∧ (k : ℚ) * tb ≤ t ∧ t < ((k : ℚ) + 1) * tb := by
  have habs := abs_le.mp (abs_sub_round (t / tb))
  by_cases hgt : snap_time_to_timebase t tb > t
  · refine ⟨round (t / tb) - 1, ?_, ?_, ?_, ?_⟩
    · rw [if_pos hgt, snap_time_to_timebase]
      push_cast
      ring
    · rw [if_pos hgt, snap_time_to_timebase]
      push_cast
      ring
    · have hA : ((round (t / tb) : ℚ) - 1/2) ≤ t / tb := by linarith [habs.1]
      have hA' : ((round (t / tb) : ℚ) - 1/2) * tb ≤ t := (le_div_iff₀ htb).mp hA
      have hmul : ((round (t / tb) : ℚ) - 1) * tb ≤ ((round (t / tb) : ℚ) - 1/2) * tb :=
        mul_le_mul_of_nonneg_right (by linarith) (le_of_lt htb)
      push_cast
      linarith
    · rw [snap_time_to_timebase] at hgt
      push_cast
      linarith [hgt]
  · refine ⟨round (t / tb), ?_, ?_, ?_, ?_⟩
    · rw [if_neg hgt, snap_time_to_timebase]
    · rw [if_neg hgt, snap_time_to_timebase]
      ring
    · rw [snap_time_to_timebase] at hgt
      exact not_lt.mp hgt
    · have hB : t / tb < (round (t / tb) : ℚ) + 1 := by linarith [habs.2]
      exact (div_lt_iff₀ htb).mp hB

theorem subtract_cells_le (tb : ℚ) (htb : 0 < tb) (k : ℤ) (x : TimeRange) :
    listCells tb (subtractRange x ⟨(k : ℚ) * tb, ((k : ℚ) + 1) * tb⟩)
      ≤ rangeCells tb x := by
  obtain ⟨c, d⟩ := x
  show listCells tb
      ((if c < min d ((k : ℚ) * tb) then [⟨c, min d ((k : ℚ) * tb)⟩] else [])
        ++ (if max c (((k : ℚ) + 1) * tb) < d then [⟨max c (((k : ℚ) + 1) * tb), d⟩] else []))
      ≤ rangeCells tb ⟨c, d⟩
  rw [listCells_append]
  have hsn : (k : ℚ) * tb < ((k : ℚ) + 1) * tb := by nlinarith
  by_cases hA : c < min d ((k : ℚ) * tb)
  · by_cases hB : max c (((k : ℚ) + 1) * tb) < d
    · -- both pieces survive: the removed cell sits strictly inside [c, d)
      have hcs : c < (k : ℚ) * tb := lt_of_lt_of_le hA (min_le_right _ _)
      have hnd : ((k : ℚ) + 1) * tb < d := lt_of_le_of_lt (le_max_right _ _) hB
      have hsd : (k : ℚ) * tb < d := lt_trans hsn hnd
      have hmin : min d ((k : ℚ) * tb) = (k : ℚ) * tb := min_eq_right (le_of_lt hsd)
      have hmax : max c (((k : ℚ) + 1) * tb) = ((k : ℚ) + 1) * tb :=
        max_eq_right (le_of_lt (lt_trans hcs hsn))
      rw [if_pos hA, if_pos hB, hmin, hmax]
      have hceil_s : ⌈((k : ℚ) * tb) / tb⌉ = k := by
        rw [mul_div_cancel_right₀ _ (ne_of_gt htb)]
        exact Int.ceil_intCast k
      have hfloor_n : ⌊(((k : ℚ) + 1) * tb) / tb⌋ = k + 1 := by
        rw [mul_div_cancel_right₀ _ (ne_of_gt htb)]
        rw [show ((k : ℚ) + 1) = ((k + 1 : ℤ) : ℚ) from by push_cast; ring]
        exact Int.floor_intCast _
      have hF : ⌊c / tb⌋ < k := Int.floor_lt.mpr ((div_lt_iff₀ htb).mpr hcs)
      have hC : k + 1 < ⌈d / tb⌉ := Int.lt_ceil.mpr (by
        rw [show ((k + 1 : ℤ) : ℚ) = (k : ℚ) + 1 from by push_cast; ring]
        exact (lt_div_iff₀ htb).mpr hnd)
      simp only [listCells, rangeCells, hceil_s, hfloor_n]
      omega
    · rw [if_pos hA, if_neg hB]
      have hmono : ⌈min d ((k : ℚ) * tb) / tb⌉ ≤ ⌈d / tb⌉ :=
        Int.ceil_le_ceil ((div_le_div_iff_of_pos_right htb).mpr (min_le_left _ _))
      simp only [listCells, rangeCells]
      omega
  · by_cases hB : max c (((k : ℚ) + 1) * tb) < d
    · rw [if_neg hA, if_pos hB]
      have hmono : ⌊c / tb⌋ ≤ ⌊max c (((k : ℚ) + 1) * tb) / tb⌋ :=
        Int.floor_le_floor ((div_le_div_iff_of_pos_right htb).mpr (le_max_left _ _))
      simp only [listCells, rangeCells]
      omega
    · rw [if_neg hA, if_neg hB]
      simp [listCells, rangeCells]

theorem subtract_cells_lt (tb : ℚ) (htb : 0 < tb) (k : ℤ) (x : TimeRange)
    (h1 : (k : ℚ) * tb ≤ x.rin) (h2 : x.rin < ((k : ℚ) + 1) * tb) :
    listCells tb (subtractRange x ⟨(k : ℚ) * tb, ((k : ℚ) + 1) * tb⟩)
      < rangeCells tb x := by
  obtain ⟨c, d⟩ := x
  show listCells tb
      ((if c < min d ((k : ℚ) * tb) then [⟨c, min d ((k : ℚ) * tb)⟩] else [])
        ++ (if max c (((k : ℚ) + 1) * tb) < d then [⟨max c (((k : ℚ) + 1) * tb), d⟩] else []))
      < rangeCells tb ⟨c, d⟩
  rw [listCells_append]
  have hA : ¬ (c < min d ((k : ℚ) * tb)) :=
    not_lt.mpr (le_trans (min_le_right _ _) h1)
  rw [if_neg hA]
  have hfloor_c : ⌊c / tb⌋ = k := by
    rw [Int.floor_eq_iff]
    constructor
    · exact (le_div_iff₀ htb).mpr h1
    · exact (div_lt_iff₀ htb).mpr (by linarith [h2])
  by_cases hB : max c (((k : ℚ) + 1) * tb) < d
  · have hnd : ((k : ℚ) + 1) * tb < d := lt_of_le_of_lt (le_max_right _ _) hB
    have hmax : max c (((k : ℚ) + 1) * tb) = ((k : ℚ) + 1) * tb :=
      max_eq_right (le_of_lt h2)
    rw [if_pos hB, hmax]
    have hfloor_n : ⌊(((k : ℚ) + 1) * tb) / tb⌋ = k + 1 := by
      rw [mul_div_cancel_right₀ _ (ne_of_gt htb)]
      rw [show ((k : ℚ) + 1) = ((k + 1 : ℤ) : ℚ) from by push_cast; ring]
      exact Int.floor_intCast _
    have hC : k + 1 < ⌈d / tb⌉ := Int.lt_ceil.mpr (by
      rw [show ((k + 1 : ℤ) : ℚ) = (k : ℚ) + 1 from by push_cast; ring]
      exact (lt_div_iff₀ htb).mpr hnd)
    simp only [listCells, rangeCells, hfloor_n, hfloor_c]
    omega
  · rw [if_neg hB]
    simp [listCells, rangeCells]

theorem removeTimeRange_cells_le (tb : ℚ) (htb : 0 < tb) (k : ℤ) :
    ∀ l : List TimeRange,
      listCells tb (removeTimeRange l ⟨(k : ℚ) * tb, ((k : ℚ) + 1) * tb⟩)
        ≤ listCells tb l := by
  intro l
  induction l with
  | nil => exact le_refl _
  | cons x rest ih =>
    rw [removeTimeRange, listCells_append]
    exact Nat.add_le_add (subtract_cells_le tb htb k x) ih

theorem removeTimeRange_cells_lt (tb : ℚ) (htb : 0 < tb) (k : ℤ) (x : TimeRange)
    (rest : List TimeRange) (h1 : (k : ℚ) * tb ≤ x.rin) (h2 : x.rin < ((k : ℚ) + 1) * tb) :
    listCells tb (removeTimeRange (x :: rest) ⟨(k : ℚ) * tb, ((k : ℚ) + 1) * tb⟩)
      < listCells tb (x :: rest) := by
  rw [removeTimeRange, listCells_append]
  show _ < rangeCells tb x + listCells tb rest
  exact Nat.add_lt_add_of_lt_of_le (subtract_cells_lt tb htb k x h1 h2)
    (removeTimeRange_cells_le tb htb k rest)

theorem getFrameList_total (tb : ℚ) (htb : 0 < tb) :
    ∀ (fuel : Nat) (l : List TimeRange), listCells tb l ≤ fuel →
      ∃ out, GetFrameListFromTimeRange fuel l tb = some out := by
  intro fuel
  induction fuel with
  | zero =>
    intro l hl
    cases l with
    | nil => exact ⟨[], rfl⟩
    | cons x rest =>
      exfalso
      have : 0 < listCells tb (x :: rest) := by
        show 0 < rangeCells tb x + listCells tb rest
        have : 0 < rangeCells tb x := Nat.succ_pos _
        omega
      omega
  | succ n ih =>
    intro l hl
    cases l with
    | nil => exact ⟨[], rfl⟩
    | cons x rest =>
      obtain ⟨k, hsel, hnext, hk1, hk2⟩ := snap_sel_grid tb htb x.rin
      have hstep : GetFrameListFromTimeRange (n + 1) (x :: rest) tb =
          Option.map
            (fun out => (if snap_time_to_timebase x.rin tb > x.rin
                then snap_time_to_timebase x.rin tb - tb
                else snap_time_to_timebase x.rin tb) :: out)
            (GetFrameListFromTimeRange n
              (removeTimeRange (x :: rest)
                ⟨if snap_time_to_timebase x.rin tb > x.rin
                    then snap_time_to_timebase x.rin tb - tb
                    else snap_time_to_timebase x.rin tb,
                  if snap_time_to_timebase x.rin tb > x.rin
                    then snap_time_to_timebase x.rin tb
                    else snap_time_to_timebase x.rin tb + tb⟩) tb) := rfl
      rw [hstep, hsel, hnext]
      have hmeas : listCells tb
          (removeTimeRange (x :: rest) ⟨(k : ℚ) * tb, ((k : ℚ) + 1) * tb⟩) ≤ n := by
        have hlt := removeTimeRange_cells_lt tb htb k x rest hk1 hk2
        omega
      obtain ⟨out, hout⟩ := ih _ hmeas
      rw [hout]
      exact ⟨_, rfl⟩

/-- Claim C5: for every working list of time intervals, the grid expansion
loop of `GetFrameListFromTimeRange` terminates whenever the timebase is
strictly positive — some finite fuel makes the embedded loop finish. -/
theorem getFrameList_terminates (l : List TimeRange) (tb : ℚ) (htb : 0 < tb) :
    ∃ fuel out, GetFrameListFromTimeRange fuel l tb = some out :=
  ⟨listCells tb l, getFrameList_total tb htb (listCells tb l) l (le_refl _)⟩

/-- Witness for C5: instantiated at the interval `[0, 3)` with timebase `1`. -/
theorem getFrameList_terminates_witness :
    (0 : ℚ) < 1 ∧ ∃ fuel out, GetFrameListFromTimeRange fuel [⟨0, 3⟩] 1 = some out :=
  ⟨by norm_num, getFrameList_terminates [⟨0, 3⟩] 1 (by norm_num)⟩

/-- Claim C4: each iteration of the expansion takes the first remaining
interval's start `t`, snaps it to the grid; if the snapped instant is
strictly after `t`, the selected sample is `snapped - timebase` and the next
boundary is the snapped instant, otherwise the selected sample is the
snapped instant and the next boundary is `snapped + timebase`; the selected
sample is emitted and `[selected, next)` subtracted from the working list,
until the list is empty.  In particular `expand([0,3), timebase=1)` yields
exactly `[0, 1, 2]`, in ascending order. -/
theorem getFrameList_step_spec :
    (∀ (fuel : Nat) (tb : ℚ), GetFrameListFromTimeRange fuel [] tb = some [])
    ∧ (∀ (fuel : Nat) (x : TimeRange) (rest : List TimeRange) (tb : ℚ),
      GetFrameListFromTimeRange (fuel + 1) (x :: rest) tb =
        Option.map
          (fun out => (if snap_time_to_timebase x.rin tb > x.rin
              then snap_time_to_timebase x.rin tb - tb
              else snap_time_to_timebase x.rin tb) :: out)
          (GetFrameListFromTimeRange fuel
            (removeTimeRange (x :: rest)
              ⟨if snap_time_to_timebase x.rin tb > x.rin
                  then snap_time_to_timebase x.rin tb - tb
                  else snap_time_to_timebase x.rin tb,
                if snap_time_to_timebase x.rin tb > x.rin
                  then snap_time_to_timebase x.rin tb
                  else snap_time_to_timebase x.rin tb + tb⟩) tb))
    ∧ GetFrameListFromTimeRange 4 [⟨0, 3⟩] 1 = some [0, 1, 2]
    ∧ List.Chain' (· < ·) [(0 : ℚ), 1, 2] := by
  refine ⟨fun fuel tb => by cases fuel <;> rfl, fun fuel x rest tb => rfl, ?_, by norm_num⟩
  norm_num [GetFrameListFromTimeRange, snap_time_to_timebase, round_eq,
    removeTimeRange, subtractRange]

/-- Claim C6 (the code violates it): `GetFrameListFromTimeRange` contains no
validation of the timebase: called with timebase `0` on the nonempty range
`[0, 1)` the loop makes no progress, so no amount of fuel completes it —
the code loops forever instead of validating and failing fast as the spec
requires. -/
theorem getFrameList_no_timebase_guard :
    ∀ fuel : Nat, GetFrameListFromTimeRange fuel [⟨0, 1⟩] 0 = none := by
  intro fuel
  induction fuel with
  | zero => rfl
  | succ n ih =>
    have hstep : GetFrameListFromTimeRange (n + 1) [⟨0, 1⟩] 0
        = Option.map (fun l => (0 : ℚ) :: l) (GetFrameListFromTimeRange n [⟨0, 1⟩] 0) := by
      norm_num [GetFrameListFromTimeRange, snap_time_to_timebase, round_eq,
        removeTimeRange, subtractRange]
    rw [hstep, ih]
    rfl

end Olive
